import Mathlib

/-!
Verification of the per-page OCR pipeline (`ocr_smarter.py`).

The definitions below are a shallow embedding of the pipeline's core
functions: filename sanitization, the image-reference regular expressions
used for reconciliation, candidate-image extraction and cleanup, the
response-handling control flow of `process_pdf` (with Python's exception
semantics for the shapes the pipeline touches), the single-request analysis
client, and the gamma-correction lookup table.  Strings are modelled as
`List Char`, machine reals of the gamma table as exact reals with a final
floor (the float64 error is orders of magnitude below every margin used in
a proof), and library calls (`requests`, `json.loads`) as explicit inputs.
-/

/-! ### Filename sanitization (`sanitize_filename`, ocr_smarter.py lines 35-39) -/

/-- The characters removed by the first substitution step,
the regex character class of backslash, slash, star, question mark, colon,
double quote, less-than, greater-than and pipe. -/
def forbiddenFilenameChars : List Char := ['\\', '/', '*', '?', ':', '"', '<', '>', '|']

/-- `sanitize_filename`: drop the forbidden characters, turn each space into
an underscore, drop newlines, keep the first 100 characters. -/
def sanitize_filename (name : List Char) : List Char :=
  ((((name.filter (fun c => !(forbiddenFilenameChars.contains c))).map
      (fun c => if c = ' ' then '_' else c)).filter (fun c => !(c = '\n'))).take 100)

/-- The filename composition of `process_pdf` line 264, applied to the three
already-sanitized fields. -/
def composeFilename (u l t : List Char) : List Char :=
  "Unit_".toList ++ u ++ "_Lesson_".toList ++ l ++ "_".toList ++ t ++ ".md".toList

/-! ### The two image-reference regular expressions of `process_pdf`

`re.findall(r'!\[.*?\]\((.*?)\)', md)` collects the reference targets
(line 249) and `re.sub(r'(!\[.*?\]\()', r'\1../illustrative_images/', md)`
inserts the directory in front of each target (line 258).  Both are scanners
over the character list; the lazy `.*?` never crosses a newline and stops at
the first position where the rest of the pattern matches (for these patterns
that first position is the only one Python's backtracking can accept, since
a later closer would also have served the earlier attempt). -/

/-- Scan for the two-character closer of a lazy `.*?\]\(`: the consumed
characters (none of them a newline) and the rest after the closer. -/
def findLazyClose : List Char → Option (List Char × List Char)
  | [] => none
  | c :: rest =>
    if c = ']' ∧ rest.head? = some '(' then some ([], rest.tail)
    else if c = '\n' then none
    else
      match findLazyClose rest with
      | some (mid, r) => some (c :: mid, r)
      | none => none

/-- Scan for the closing parenthesis of a lazy `(.*?)\)`. -/
def findLazyParen : List Char → Option (List Char × List Char)
  | [] => none
  | c :: rest =>
    if c = ')' then some ([], rest)
    else if c = '\n' then none
    else
      match findLazyParen rest with
      | some (mid, r) => some (c :: mid, r)
      | none => none

/-- One attempt of the findall pattern at the start of the input: the
captured target and the rest after the match. -/
def matchImageRefAt (cs : List Char) : Option (List Char × List Char) :=
  match cs with
  | c1 :: c2 :: rest =>
    if c1 = '!' ∧ c2 = '[' then
      match findLazyClose rest with
      | some (_, afterClose) =>
        match findLazyParen afterClose with
        | some (target, afterParen) => some (target, afterParen)
        | none => none
      | none => none
    else none
  | _ => none

/-- One attempt of the sub pattern at the start of the input: the whole
matched text (alt text and brackets included) and the rest after it. -/
def matchImageOpenAt (cs : List Char) : Option (List Char × List Char) :=
  match cs with
  | c1 :: c2 :: rest =>
    if c1 = '!' ∧ c2 = '[' then
      match findLazyClose rest with
      | some (alt, afterClose) => some ('!' :: '[' :: (alt ++ [']', '(']), afterClose)
      | none => none
    else none
  | _ => none

/-- The findall scanner with explicit fuel (one unit per character of the
input suffices, a match always consumes more than it spends). -/
def findallGo : Nat → List Char → List (List Char)
  | 0, _ => []
  | _ + 1, [] => []
  | fuel + 1, c :: rest =>
    match matchImageRefAt (c :: rest) with
    | some (target, after) => target :: findallGo fuel after
    | none => findallGo fuel rest

/-- `re.findall(r'!\[.*?\]\((.*?)\)', cs)`: every image-reference target. -/
def findallImageRefs (cs : List Char) : List (List Char) := findallGo cs.length cs

/-- The fixed relative directory inserted in front of every reference. -/
def refDirChars : List Char := "../illustrative_images/".toList

/-- The sub scanner with explicit fuel. -/
def subGo : Nat → List Char → List Char
  | 0, cs => cs
  | _ + 1, [] => []
  | fuel + 1, c :: rest =>
    match matchImageOpenAt (c :: rest) with
    | some (matched, after) => matched ++ refDirChars ++ subGo fuel after
    | none => c :: subGo fuel rest

/-- `re.sub(r'(!\[.*?\]\()', r'\1../illustrative_images/', cs)`. -/
def rewriteImageRefs (cs : List Char) : List Char := subGo cs.length cs

/-! ### Structured markdown documents

To state what the two regular expressions do, a markdown text is presented
as a list of segments: plain text, or an image reference with alt text and
target path.  Well-formedness rules out the characters that would make a
segment bleed into its neighbour under the scanners. -/

/-- A markdown segment: plain text, or an image reference. -/
inductive Seg where
  | text (s : List Char)
  | img (alt path : List Char)
deriving DecidableEq

/-- `true` when no two adjacent characters are the closer pair bracket-paren. -/
def noEarlyClose : List Char → Bool
  | [] => true
  | _ :: [] => true
  | c1 :: c2 :: rest => (!(decide (c1 = ']' ∧ c2 = '('))) && noEarlyClose (c2 :: rest)

/-- Render one segment back to characters. -/
def renderSeg : Seg → List Char
  | .text s => s
  | .img a p => '!' :: '[' :: (a ++ ']' :: '(' :: (p ++ [')']))

/-- Render a document. -/
def renderDoc (d : List Seg) : List Char := (d.map renderSeg).flatten

/-- Well-formedness of a segment: text holds no bang; an alt text holds no
newline and no closer pair; a path holds no newline, no closing parenthesis
and no bang. -/
def wfSeg : Seg → Prop
  | .text s => '!' ∉ s
  | .img a p => '\n' ∉ a ∧ noEarlyClose a = true ∧ '\n' ∉ p ∧ ')' ∉ p ∧ '!' ∉ p

instance : (sg : Seg) → Decidable (wfSeg sg)
  | .text s => inferInstanceAs (Decidable ('!' ∉ s))
  | .img a p =>
    inferInstanceAs (Decidable ('\n' ∉ a ∧ noEarlyClose a = true ∧ '\n' ∉ p ∧ ')' ∉ p ∧ '!' ∉ p))

/-- The image targets of a document, in order. -/
def docImageTargets (d : List Seg) : List (List Char) :=
  d.filterMap (fun sg => match sg with | .img _ p => some p | .text _ => none)

/-- Put the fixed relative directory in front of a segment's target. -/
def prependRefDir : Seg → Seg
  | .text s => .text s
  | .img a p => .img a (refDirChars ++ p)

/-! ### Candidate extraction (`extract_illustrative_images`, lines 100-131) -/

/-- One embedded raster object as `doc.extract_image` returns it. -/
structure EmbeddedImage where
  bytes : List Nat
  width : Nat
  height : Nat
  ext : List Char
deriving DecidableEq

/-- One surviving candidate: its relative path (scoped to the page
subdirectory's basename) and its payload (the base64 field is a bijective
encoding of the bytes, so the bytes stand for it). -/
structure CandidateImage where
  path : List Char
  payload : List Nat
deriving DecidableEq

/-- The deterministic filename of the candidate with a given enumeration
index: the letters img, an underscore, the index, a dot and the extension. -/
def candidateFilename (i : Nat) (ext : List Char) : List Char :=
  "img_".toList ++ (toString i).toList ++ '.' :: ext

/-- The extraction loop.  Each list entry is one `xref` of
`page.get_images(full=True)`: `Except.error` when `doc.extract_image`
raises (the loop logs and continues), `Except.ok` the returned object.
The enumeration index advances on every entry, skipped or not. -/
def extractGo (dirBase : List Char) : Nat → List (Except Unit EmbeddedImage) → List CandidateImage
  | _, [] => []
  | i, .error _ :: rest => extractGo dirBase (i + 1) rest
  | i, .ok img :: rest =>
    if img.bytes = [] ∨ img.width < 50 ∨ img.height < 50 then
      extractGo dirBase (i + 1) rest
    else
      ⟨dirBase ++ '/' :: candidateFilename i img.ext, img.bytes⟩ :: extractGo dirBase (i + 1) rest

/-- `extract_illustrative_images` for one page: `dirBase` is the basename of
the page's image output directory (for page index 0 that is page_1). -/
def extract_illustrative_images (objs : List (Except Unit EmbeddedImage))
    (dirBase : List Char) : List CandidateImage :=
  extractGo dirBase 0 objs

/-! ### JSON values and the Python semantics the reconciler exercises -/

/-- A parsed JSON value (what `json.loads` can produce). -/
inductive JVal where
  | str (s : List Char)
  | num (n : Int)
  | bool (b : Bool)
  | null
  | arr (xs : List JVal)
  | obj (fields : List (List Char × JVal))

/-- The exception classes the page loop can meet.  The `except` clause of
`process_pdf` line 271 catches exactly the first three. -/
inductive PyExc where
  | jsonDecodeError
  | keyError
  | typeError
  | attributeError
  | indexError
deriving DecidableEq

/-- The tuple of `except (json.JSONDecodeError, KeyError, TypeError)`. -/
def caughtByHandler : PyExc → Bool
  | .jsonDecodeError => true
  | .keyError => true
  | .typeError => true
  | _ => false

/-- Python truthiness of a JSON value. -/
def pyTruthy : JVal → Bool
  | .str s => !s.isEmpty
  | .num n => !(decide (n = 0))
  | .bool b => b
  | .null => false
  | .arr xs => !xs.isEmpty
  | .obj fs => !fs.isEmpty

/-- The whitespace characters of `str.strip` (the ASCII ones; the pipeline
never relies on the Unicode extras). -/
def pyWhitespaceChars : List Char := [' ', '\t', '\n', '\r', '\x0b', '\x0c']

/-- `str.strip()`: drop leading and trailing whitespace. -/
def pyStrip (s : List Char) : List Char :=
  ((s.dropWhile (fun c => pyWhitespaceChars.contains c)).reverse.dropWhile
      (fun c => pyWhitespaceChars.contains c)).reverse

/-- `dict.get(key)`: `json.loads` keeps the last of duplicate keys, so the
last matching binding wins. -/
def jvalGet (fields : List (List Char × JVal)) (key : List Char) : Option JVal :=
  ((fields.filter (fun kv => decide (kv.1 = key))).getLast?).map (fun kv => kv.2)

/-- Python `a or b` on an optional field lookup: the value when truthy,
the default otherwise. -/
def pyOr (v : Option JVal) (d : JVal) : JVal :=
  match v with
  | some x => if pyTruthy x then x else d
  | none => d

mutual

/-- Python `repr` of a JSON value (string escaping inside container entries
is not modelled; the pipeline only ever converts scalars). -/
def pyRepr : JVal → List Char
  | .str s => '\'' :: (s ++ ['\''])
  | .num n => (toString n).toList
  | .bool b => if b then "True".toList else "False".toList
  | .null => "None".toList
  | .arr xs => '[' :: (pyReprList xs ++ [']'])
  | .obj fs => '{' :: (pyReprFields fs ++ ['}'])

/-- Comma-separated reprs of a list's entries. -/
def pyReprList : List JVal → List Char
  | [] => []
  | [x] => pyRepr x
  | x :: xs => pyRepr x ++ ',' :: ' ' :: pyReprList xs

/-- Comma-separated reprs of a dict's entries. -/
def pyReprFields : List (List Char × JVal) → List Char
  | [] => []
  | [(k, v)] => '\'' :: (k ++ '\'' :: ':' :: ' ' :: pyRepr v)
  | (k, v) :: fs => ('\'' :: (k ++ '\'' :: ':' :: ' ' :: pyRepr v)) ++ ',' :: ' ' :: pyReprFields fs

end

/-- Python `str()` of a JSON value. -/
def pyStr : JVal → List Char
  | .str s => s
  | .num n => (toString n).toList
  | .bool b => if b then "True".toList else "False".toList
  | .null => "None".toList
  | .arr xs => pyRepr (.arr xs)
  | .obj fs => pyRepr (.obj fs)

/-- `sanitize_filename` applied to a raw JSON field: `re.sub` raises
TypeError on anything that is not a string. -/
def sanitizeField : JVal → Except PyExc (List Char)
  | .str s => .ok (sanitize_filename s)
  | _ => .error .typeError

/-! ### The page-result handling of `process_pdf` (lines 239-275)

`reconcileParsed` models the body of the try block from `json.loads`'s
result onward; `processPageResult` adds the envelope guard, the content
extraction chain and the `except` clause.  `json.loads` itself is library
code and enters as the `parse` argument.  The filesystem is the list of
candidate paths (relative to the illustrative_images directory) still on
disk, and `os.remove` of an existing file is `List.erase`. -/

/-- The keys the reconciler reads. -/
def mdKey : List Char := "markdown_content".toList

def unitKey : List Char := "unit_name".toList

def lessonKey : List Char := "lesson_number".toList

def titleKey : List Char := "lesson_title".toList

def choicesKey : List Char := "choices".toList

def messageKey : List Char := "message".toList

def contentKey : List Char := "content".toList

/-- The cleanup loop of lines 250-255: delete the persisted file of every
candidate whose relative path is not among the referenced targets
(`os.remove` only when the file exists, which `erase` subsumes). -/
def cleanupImages (subs : List CandidateImage) (referenced : List (List Char))
    (files : List (List Char)) : List (List Char) :=
  match subs with
  | [] => files
  | img :: rest =>
    if img.path ∈ referenced then cleanupImages rest referenced files
    else cleanupImages rest referenced (files.erase img.path)

/-- What one iteration of the page loop leaves behind: the files still on
disk, the written markdown file (name and body) if any, and the exception
escaping the iteration (none when the page completed or was skipped). -/
structure PageOutcome where
  files : List (List Char)
  written : Option (List Char × List Char)
  raised : Option PyExc
deriving DecidableEq

/-- The try-block body from `json_obj = json.loads(...)` onward.  A raised
exception is recorded in `raised` for the `except` clause to filter;
note the files reflect any cleanup already performed before the raise. -/
def reconcileParsed (jv : JVal) (pageNum : Nat) (subs : List CandidateImage)
    (files : List (List Char)) : PageOutcome :=
  match jv with
  | .obj fields =>
    match jvalGet fields mdKey with
    | none => ⟨files, none, none⟩
    | some v =>
      if pyTruthy v = false then ⟨files, none, none⟩
      else
        match v with
        | .str s =>
          if (pyStrip s).isEmpty then ⟨files, none, none⟩
          else
            let referenced := findallImageRefs s
            let files1 := cleanupImages subs referenced files
            let finalMd := rewriteImageRefs s
            let unit := pyOr (jvalGet fields unitKey) (.str "UnknownUnit".toList)
            let lessonNum := pyOr (jvalGet fields lessonKey)
              (.str ("Page_".toList ++ (toString (pageNum + 1)).toList))
            let title := pyOr (jvalGet fields titleKey) (.str "Untitled".toList)
            match sanitizeField unit with
            | .error e => ⟨files1, none, some e⟩
            | .ok u =>
              let l := sanitize_filename (pyStr lessonNum)
              match sanitizeField title with
              | .error e => ⟨files1, none, some e⟩
              | .ok t => ⟨files1, some (composeFilename u l t, finalMd), none⟩
        | _ => ⟨files, none, some .attributeError⟩
  | _ => ⟨files, none, some .attributeError⟩

/-- Subscripting with a string key: a dict looks the key up (KeyError when
missing), everything else raises TypeError. -/
def pyGetItemKey (v : JVal) (key : List Char) : Except PyExc JVal :=
  match v with
  | .obj fields =>
    match jvalGet fields key with
    | some x => .ok x
    | none => .error .keyError
  | _ => .error .typeError

/-- Subscripting with the integer 0: a list yields its head (IndexError when
empty), a dict raises KeyError (JSON keys are strings), a string yields its
first character, everything else raises TypeError. -/
def pyGetItemZero (v : JVal) : Except PyExc JVal :=
  match v with
  | .arr [] => .error .indexError
  | .arr (x :: _) => .ok x
  | .obj _ => .error .keyError
  | .str [] => .error .indexError
  | .str (c :: _) => .ok (.str [c])
  | _ => .error .typeError

/-- Is `needle` a contiguous run of `hay` (Python `in` on strings)? -/
def containsSub (needle hay : List Char) : Bool :=
  match hay with
  | [] => needle.isEmpty
  | _ :: rest => needle.isPrefixOf hay || containsSub needle rest

/-- Equality of a JSON value with a Python string (for `in` on a list). -/
def jvalEqStr (v : JVal) (k : List Char) : Bool :=
  match v with
  | .str s => decide (s = k)
  | _ => false

/-- Python `key in v`: dict key membership, list element equality, substring
on strings, TypeError elsewhere. -/
def pyIn (key : List Char) (v : JVal) : Except PyExc Bool :=
  match v with
  | .obj fields => .ok (fields.any (fun kv => decide (kv.1 = key)))
  | .arr xs => .ok (xs.any (fun x => jvalEqStr x key))
  | .str s => .ok (containsSub key s)
  | _ => .error .typeError

/-- `result['choices'][0]['message']['content']`. -/
def contentChain (v : JVal) : Except PyExc JVal := do
  let c ← pyGetItemKey v choicesKey
  let c0 ← pyGetItemZero c
  let m ← pyGetItemKey c0 messageKey
  pyGetItemKey m contentKey

/-- The `except` clause: a caught exception logs the raw content by running
the extraction chain again (an exception raised by that logging escapes the
loop); anything not in the tuple escapes directly. -/
def handleExc (v : JVal) (files : List (List Char)) (e : PyExc) : PageOutcome :=
  if caughtByHandler e then
    match contentChain v with
    | .error e2 => ⟨files, none, some e2⟩
    | .ok _ => ⟨files, none, none⟩
  else ⟨files, none, some e⟩

/-- One full iteration of steps 9-11 of `process_pdf` for one page:
the guard `if result and 'choices' in result and result['choices']:`
(outside the try block, so its exceptions escape), then the try block with
content extraction, `json.loads` (the `parse` argument), and
`reconcileParsed`, filtered by the `except` clause. -/
def processPageResult (result : Option JVal) (parse : List Char → Except Unit JVal)
    (pageNum : Nat) (subs : List CandidateImage) (files : List (List Char)) : PageOutcome :=
  match result with
  | none => ⟨files, none, none⟩
  | some v =>
    match pyIn choicesKey v with
    | .error e => ⟨files, none, some e⟩
    | .ok false => ⟨files, none, none⟩
    | .ok true =>
      match pyGetItemKey v choicesKey with
      | .error e => ⟨files, none, some e⟩
      | .ok cv =>
        if pyTruthy cv = false then ⟨files, none, none⟩
        else
          match contentChain v with
          | .error e => handleExc v files e
          | .ok content =>
            match content with
            | .str raw =>
              match parse raw with
              | .error _ => handleExc v files .jsonDecodeError
              | .ok jv =>
                let r := reconcileParsed jv pageNum subs files
                match r.raised with
                | none => r
                | some e => handleExc v r.files e
            | _ => handleExc v files .typeError

/-! ### The analysis client (`generate_analysis_from_llm`, lines 133-182)

The function builds one request and posts it once (timeout 180 s); the
transport's behaviour per attempt is the `transport` argument.  The result
records how many posts were made, the backoff sleeps performed between
attempts, the parsed response body on success, and the response text
surfaced on a failure that still carried a response. -/

/-- What one `requests.post` can come back with: a success whose body parses
as JSON, a response whose status makes `raise_for_status` raise, or a
timeout / connection error with no response at all. -/
inductive TransportOutcome where
  | success (body : JVal)
  | httpError (bodyText : List Char)
  | connError

/-- The observable behaviour of one call of the analysis client. -/
structure LLMCallResult where
  attempts : Nat
  sleeps : List Nat
  response : Option JVal
  surfaced : Option (List Char)

/-- `generate_analysis_from_llm`: an empty key is rejected before any post;
otherwise exactly one post is made and its outcome decides everything -
there is no retry loop and no sleep in the function. -/
def generate_analysis_from_llm (apiKey : List Char)
    (transport : Nat → TransportOutcome) : LLMCallResult :=
  if apiKey.isEmpty then ⟨0, [], none, none⟩
  else
    match transport 0 with
    | .success body => ⟨1, [], some body, none⟩
    | .httpError text => ⟨1, [], none, some text⟩
    | .connError => ⟨1, [], none, none⟩

/-! ### The gamma-correction lookup (`apply_gamma`, lines 74-78)

`table[i] = uint8(255 * (i/255) ** (1/gamma))`; the cast truncates, so each
entry is the floor of the real value (the counterexample below sits nine
decimal orders of magnitude away from the nearest integer boundary, far
beyond float64 error). -/

/-- The real-valued gamma map. -/
noncomputable def gammaMap (γ : ℝ) (x : ℝ) : ℝ := 255 * (x / 255) ^ γ⁻¹

/-- The lookup-table entry for intensity `i`. -/
noncomputable def gammaTable (γ : ℝ) (i : ℕ) : ℤ := ⌊gammaMap γ i⌋

/-! ### The concrete reconciliation scenario of the spec's test list

Two 100 by 100 candidates are extracted from page index 0, the model stub
answers with metadata U1 / 1 / T and a markdown body referencing the bare
filename img_0.png. -/

def scenarioObjects : List (Except Unit EmbeddedImage) :=
  [.ok ⟨[1], 100, 100, "png".toList⟩, .ok ⟨[2], 100, 100, "png".toList⟩]

def scenarioDirBase : List Char := "page_1".toList

def scenarioCandidates : List CandidateImage :=
  extract_illustrative_images scenarioObjects scenarioDirBase

def scenarioFiles : List (List Char) := scenarioCandidates.map (fun c => c.path)

def scenarioContent : JVal :=
  .obj [(unitKey, .str "U1".toList), (lessonKey, .str "1".toList),
        (titleKey, .str "T".toList), (mdKey, .str "text ![d](img_0.png)".toList)]

def scenarioParse : List Char → Except Unit JVal := fun _ => .ok scenarioContent

/-- A response envelope whose message content is the given raw string. -/
def envelopeOf (raw : List Char) : JVal :=
  .obj [(choicesKey, .arr [.obj [(messageKey, .obj [(contentKey, .str raw)])]])]

def scenarioOutcome : PageOutcome :=
  processPageResult (some (envelopeOf "stub".toList)) scenarioParse 0
    scenarioCandidates scenarioFiles

/-! ## Theorems -/

/-! ### Sanitization -/

theorem contains_eq_true_iff (l : List Char) (c : Char) : l.contains c = true ↔ c ∈ l :=
  List.elem_iff

/-- Every character surviving sanitization: not forbidden, no space, no newline. -/
theorem sanitize_mem {s : List Char} {c : Char} (h : c ∈ sanitize_filename s) :
    c ∉ forbiddenFilenameChars ∧ c ≠ ' ' ∧ c ≠ '\n' := by
  unfold sanitize_filename at h
  have h1 := List.mem_of_mem_take h
  rw [List.mem_filter] at h1
  obtain ⟨h2, hq⟩ := h1
  have hnl : c ≠ '\n' := by simpa using hq
  obtain ⟨b, hb, hfb⟩ := List.mem_map.mp h2
  rw [List.mem_filter] at hb
  obtain ⟨-, hpb⟩ := hb
  have hnf : b ∉ forbiddenFilenameChars := by
    intro hmem
    have hc : forbiddenFilenameChars.contains b = true := (contains_eq_true_iff _ _).mpr hmem
    rw [hc] at hpb
    simp at hpb
  by_cases hsp : b = ' '
  · subst hsp
    simp only [if_pos rfl] at hfb
    subst hfb
    exact ⟨by decide, by decide, by decide⟩
  · rw [if_neg hsp] at hfb
    subst hfb
    exact ⟨hnf, hsp, hnl⟩

theorem sanitize_length_le (s : List Char) : (sanitize_filename s).length ≤ 100 :=
  List.length_take_le 100 _

/-- Mapping a function that fixes every element of a list fixes the list. -/
theorem map_eq_self_of {α : Type} (l : List α) (f : α → α) (h : ∀ a ∈ l, f a = a) :
    l.map f = l := by
  induction l with
  | nil => rfl
  | cons a l ih =>
    simp only [List.map_cons, h a (by simp)]
    rw [ih (fun b hb => h b (by simp [hb]))]

/-- C10.  Filename sanitization is idempotent: one pass already removes all
forbidden characters, spaces and newlines and leaves at most 100 characters,
so a second pass changes nothing. -/
theorem claim_C10_sanitize_idempotent (s : List Char) :
    sanitize_filename (sanitize_filename s) = sanitize_filename s := by
  have hmem := fun c (h : c ∈ sanitize_filename s) => sanitize_mem h
  have h1 : (sanitize_filename s).filter
      (fun c => !(forbiddenFilenameChars.contains c)) = sanitize_filename s := by
    apply List.filter_eq_self.mpr
    intro a ha
    have := (hmem a ha).1
    simp only [Bool.not_eq_true']
    rw [← Bool.not_eq_true, contains_eq_true_iff]
    exact this
  have h2 : (sanitize_filename s).map (fun c => if c = ' ' then '_' else c)
      = sanitize_filename s := by
    apply map_eq_self_of
    intro a ha
    exact if_neg (hmem a ha).2.1
  have h3 : (sanitize_filename s).filter (fun c => !(c = '\n')) = sanitize_filename s := by
    apply List.filter_eq_self.mpr
    intro a ha
    simpa using (hmem a ha).2.2
  show ((((sanitize_filename s).filter (fun c => !(forbiddenFilenameChars.contains c))).map
      (fun c => if c = ' ' then '_' else c)).filter (fun c => !(c = '\n'))).take 100
      = sanitize_filename s
  rw [h1, h2, h3]
  exact List.take_of_length_le (sanitize_length_le s)

/-- C7 counterexample.  The code removes a newline instead of replacing it
with an underscore: sanitizing the three characters a, newline, b yields the
two characters a, b, not a, underscore, b. -/
theorem claim_C7_counterexample :
    sanitize_filename ['a', '\n', 'b'] = ['a', 'b'] ∧
    sanitize_filename ['a', '\n', 'b'] ≠ ['a', '_', 'b'] := by decide

/-- C7 amended.  Sanitization strips the forbidden characters, replaces
spaces with underscores, removes newlines and truncates to 100 characters:
the output is at most 100 long and holds no forbidden character, no space
and no newline (so the 250-character input with slash and colon yields an
output of length at most 100 with neither). -/
theorem claim_C7_amended (s : List Char) (c : Char) :
    (sanitize_filename s).length ≤ 100 ∧
    (c ∈ sanitize_filename s → c ∉ forbiddenFilenameChars ∧ c ≠ ' ' ∧ c ≠ '\n') :=
  ⟨sanitize_length_le s, fun h => sanitize_mem h⟩

/-- C7 witness: the amended claim at the spec's concrete shape, a
250-character input holding slash and colon. -/
theorem claim_C7_witness :
    (sanitize_filename (List.replicate 124 '/' ++ List.replicate 124 ':' ++ ['a', 'b'])).length ≤ 100 ∧
    ('a' ∉ forbiddenFilenameChars ∧ 'a' ≠ ' ' ∧ 'a' ≠ '\n') :=
  ⟨(claim_C7_amended (List.replicate 124 '/' ++ List.replicate 124 ':' ++ ['a', 'b']) 'a').1,
   (claim_C7_amended (List.replicate 124 '/' ++ List.replicate 124 ':' ++ ['a', 'b']) 'a').2
     (by decide)⟩

/-! ### The analysis client (C1) -/

/-- C1 counterexample.  Three consecutive simulated transport failures do
not yield three attempts with waits of one and two seconds: the client makes
exactly one attempt and never sleeps. -/
theorem claim_C1_counterexample :
    (generate_analysis_from_llm "key".toList (fun _ => TransportOutcome.connError)).attempts = 1 ∧
    (generate_analysis_from_llm "key".toList (fun _ => TransportOutcome.connError)).attempts ≠ 3 ∧
    (generate_analysis_from_llm "key".toList (fun _ => TransportOutcome.connError)).sleeps ≠ [1, 2] := by
  refine ⟨rfl, by decide, by decide⟩

/-- C1 amended.  With a non-empty key the client makes exactly one attempt
and performs no backoff sleep; a success returns the parsed body, a
non-success status returns a failure surfacing the response body, and a
timeout or connection error returns a failure surfacing nothing. -/
theorem claim_C1_amended (k : List Char) (t : Nat → TransportOutcome) (hk : k ≠ []) :
    (generate_analysis_from_llm k t).attempts = 1 ∧
    (generate_analysis_from_llm k t).sleeps = [] ∧
    ((generate_analysis_from_llm k t).response =
      match t 0 with | .success b => some b | _ => none) ∧
    ((generate_analysis_from_llm k t).surfaced =
      match t 0 with | .httpError s2 => some s2 | _ => none) := by
  have hne : k.isEmpty = false := by
    cases k with
    | nil => exact absurd rfl hk
    | cons a l => rfl
  cases h : t 0 <;> simp [generate_analysis_from_llm, hne, h]

/-- C1 witness: the amended claim at a concrete key and a failing transport. -/
theorem claim_C1_witness :
    (generate_analysis_from_llm "key".toList (fun _ => TransportOutcome.httpError "err".toList)).attempts = 1 ∧
    (generate_analysis_from_llm "key".toList (fun _ => TransportOutcome.httpError "err".toList)).sleeps = [] :=
  ⟨(claim_C1_amended "key".toList (fun _ => .httpError "err".toList) (by decide)).1,
   (claim_C1_amended "key".toList (fun _ => .httpError "err".toList) (by decide)).2.1⟩

/-! ### Filename composition (C6) -/

/-- C6 counterexample.  A page whose unit name is 101 letters long is
written under a filename of 119 characters: the 100-character truncation
applies to each field, not to the composed filename. -/
theorem claim_C6_counterexample :
    (reconcileParsed (JVal.obj [(mdKey, .str "hello".toList),
        (unitKey, .str (List.replicate 101 'a')), (lessonKey, .str ['1']),
        (titleKey, .str ['T'])]) 0 [] []).written
      = some (composeFilename (sanitize_filename (List.replicate 101 'a'))
          (sanitize_filename ['1']) (sanitize_filename ['T']), "hello".toList) ∧
    (composeFilename (sanitize_filename (List.replicate 101 'a'))
        (sanitize_filename ['1']) (sanitize_filename ['T'])).length = 119 := by
  constructor
  · decide
  · decide

/-- C6 amended.  The composed filename holds no path separator and no
reserved filesystem character (each sanitized field is clean and the glue
text is clean), and since each of the three fields is truncated to 100
characters its length is at most 317 - the claimed bound of 100 on the whole
filename does not hold. -/
theorem claim_C6_amended (u l t : List Char) (c : Char) :
    (c ∈ composeFilename (sanitize_filename u) (sanitize_filename l) (sanitize_filename t) →
      c ∉ forbiddenFilenameChars) ∧
    (composeFilename (sanitize_filename u) (sanitize_filename l)
        (sanitize_filename t)).length ≤ 317 := by
  constructor
  · intro h
    simp only [composeFilename, List.append_assoc, List.mem_append] at h
    rcases h with h | h | h | h | h | h | h
    · exact (show ∀ x ∈ "Unit_".toList, x ∉ forbiddenFilenameChars by decide) c h
    · exact (sanitize_mem h).1
    · exact (show ∀ x ∈ "_Lesson_".toList, x ∉ forbiddenFilenameChars by decide) c h
    · exact (sanitize_mem h).1
    · exact (show ∀ x ∈ "_".toList, x ∉ forbiddenFilenameChars by decide) c h
    · exact (sanitize_mem h).1
    · exact (show ∀ x ∈ ".md".toList, x ∉ forbiddenFilenameChars by decide) c h
  · simp only [composeFilename, List.length_append]
    have h1 := sanitize_length_le u
    have h2 := sanitize_length_le l
    have h3 := sanitize_length_le t
    have e1 : ("Unit_".toList).length = 5 := by decide
    have e2 : ("_Lesson_".toList).length = 8 := by decide
    have e3 : ("_".toList).length = 1 := by decide
    have e4 : (".md".toList).length = 3 := by decide
    omega

/-- C6 witness: the amended claim at concrete fields. -/
theorem claim_C6_witness :
    ('U' ∉ forbiddenFilenameChars) ∧
    (composeFilename (sanitize_filename "U1".toList) (sanitize_filename "1".toList)
        (sanitize_filename "T".toList)).length ≤ 317 :=
  ⟨(claim_C6_amended "U1".toList "1".toList "T".toList 'U').1 (by decide),
   (claim_C6_amended "U1".toList "1".toList "T".toList 'U').2⟩

/-! ### The reference scanners on well-formed markdown (toward C2, C3) -/

/-- The lazy scan for the closer pair finds exactly the pair a well-formed
alt text is followed by. -/
theorem findLazyClose_append (a : List Char) (r : List Char)
    (hnl : '\n' ∉ a) (hne : noEarlyClose a = true) :
    findLazyClose (a ++ ']' :: '(' :: r) = some (a, r) := by
  induction a with
  | nil => simp [findLazyClose]
  | cons c a ih =>
    have hcnl : c ≠ '\n' := fun h => hnl (by simp [h])
    have hnl2 : '\n' ∉ a := fun h => hnl (by simp [h])
    have hcond : ¬(c = ']' ∧ (a ++ ']' :: '(' :: r).head? = some '(') := by
      rintro ⟨rfl, hh⟩
      cases a with
      | nil => simp at hh
      | cons b a2 =>
        simp at hh
        subst hh
        simp [noEarlyClose] at hne
    have hne2 : noEarlyClose a = true := by
      cases a with
      | nil => rfl
      | cons b a2 =>
        have heq : noEarlyClose (c :: b :: a2) =
            ((!(decide (c = ']' ∧ b = '('))) && noEarlyClose (b :: a2)) := rfl
        rw [heq] at hne
        simp only [Bool.and_eq_true] at hne
        exact hne.2
    show findLazyClose (c :: (a ++ ']' :: '(' :: r)) = some (c :: a, r)
    rw [findLazyClose, if_neg hcond, if_neg hcnl, ih hnl2 hne2]

/-- The lazy scan for a closing parenthesis finds exactly the one a
well-formed path is followed by. -/
theorem findLazyParen_append (p : List Char) (r : List Char)
    (hnl : '\n' ∉ p) (hnp : ')' ∉ p) :
    findLazyParen (p ++ ')' :: r) = some (p, r) := by
  induction p with
  | nil => simp [findLazyParen]
  | cons c p ih =>
    have hcnl : c ≠ '\n' := fun h => hnl (by simp [h])
    have hcnp : c ≠ ')' := fun h => hnp (by simp [h])
    have hnl2 : '\n' ∉ p := fun h => hnl (by simp [h])
    have hnp2 : ')' ∉ p := fun h => hnp (by simp [h])
    show findLazyParen (c :: (p ++ ')' :: r)) = some (c :: p, r)
    rw [findLazyParen, if_neg hcnp, if_neg hcnl, ih hnl2 hnp2]

/-- What a successful closer scan says about its input. -/
theorem findLazyClose_sound : ∀ {cs mid r : List Char},
    findLazyClose cs = some (mid, r) → cs = mid ++ ']' :: '(' :: r := by
  intro cs
  induction cs with
  | nil => intro mid r h; simp [findLazyClose] at h
  | cons c rest ih =>
    intro mid r h
    rw [findLazyClose] at h
    split_ifs at h with h1 h2
    · obtain ⟨rfl, hh⟩ := h1
      cases rest with
      | nil => simp at hh
      | cons b t =>
        simp only [List.head?] at hh
        have hb : b = '(' := by simpa using hh
        subst hb
        simp only [List.tail] at h
        have : mid = [] ∧ r = t := by simpa [eq_comm] using h
        obtain ⟨rfl, rfl⟩ := this
        rfl
    · cases hm : findLazyClose rest with
      | none => simp [hm] at h
      | some pr =>
        obtain ⟨m2, r2⟩ := pr
        simp only [hm, Option.some.injEq, Prod.mk.injEq] at h
        obtain ⟨rfl, rfl⟩ := h
        simp [ih hm]

/-- What a successful parenthesis scan says about its input. -/
theorem findLazyParen_sound : ∀ {cs mid r : List Char},
    findLazyParen cs = some (mid, r) → cs = mid ++ ')' :: r := by
  intro cs
  induction cs with
  | nil => intro mid r h; simp [findLazyParen] at h
  | cons c rest ih =>
    intro mid r h
    rw [findLazyParen] at h
    split_ifs at h with h1 h2
    · subst h1
      have : mid = [] ∧ r = rest := by simpa [eq_comm] using h
      obtain ⟨rfl, rfl⟩ := this
      rfl
    · cases hm : findLazyParen rest with
      | none => simp [hm] at h
      | some pr =>
        obtain ⟨m2, r2⟩ := pr
        simp only [hm, Option.some.injEq, Prod.mk.injEq] at h
        obtain ⟨rfl, rfl⟩ := h
        simp [ih hm]

/-- A findall match decomposes its input as bang, bracket, alt text, the
closer pair, the target, a parenthesis, and the rest. -/
theorem matchImageRefAt_sound {cs t r : List Char}
    (h : matchImageRefAt cs = some (t, r)) :
    ∃ a, cs = '!' :: '[' :: (a ++ ']' :: '(' :: (t ++ ')' :: r)) := by
  match cs with
  | [] => simp [matchImageRefAt] at h
  | [c] => simp [matchImageRefAt] at h
  | c1 :: c2 :: rest =>
    rw [matchImageRefAt] at h
    split_ifs at h with h1
    · obtain ⟨rfl, rfl⟩ := h1
      cases hm : findLazyClose rest with
      | none => simp [hm] at h
      | some pr =>
        obtain ⟨alt, afterClose⟩ := pr
        simp only [hm] at h
        cases hp : findLazyParen afterClose with
        | none => simp [hp] at h
        | some pr2 =>
          obtain ⟨t2, r2⟩ := pr2
          simp only [hp, Option.some.injEq, Prod.mk.injEq] at h
          obtain ⟨rfl, rfl⟩ := h
          refine ⟨alt, ?_⟩
          rw [findLazyClose_sound hm, findLazyParen_sound hp]

/-- A sub match decomposes its input likewise and returns the matched text. -/
theorem matchImageOpenAt_sound {cs m r : List Char}
    (h : matchImageOpenAt cs = some (m, r)) :
    ∃ a, cs = '!' :: '[' :: (a ++ ']' :: '(' :: r) ∧ m = '!' :: '[' :: (a ++ [']', '(']) := by
  match cs with
  | [] => simp [matchImageOpenAt] at h
  | [c] => simp [matchImageOpenAt] at h
  | c1 :: c2 :: rest =>
    rw [matchImageOpenAt] at h
    split_ifs at h with h1
    · obtain ⟨rfl, rfl⟩ := h1
      cases hm : findLazyClose rest with
      | none => simp [hm] at h
      | some pr =>
        obtain ⟨alt, afterClose⟩ := pr
        simp only [hm, Option.some.injEq, Prod.mk.injEq] at h
        obtain ⟨rfl, rfl⟩ := h
        exact ⟨alt, by rw [findLazyClose_sound hm], rfl⟩

theorem matchImageRefAt_length {cs t r : List Char}
    (h : matchImageRefAt cs = some (t, r)) : r.length + 5 ≤ cs.length := by
  obtain ⟨a, rfl⟩ := matchImageRefAt_sound h
  simp only [List.length_cons, List.length_append]
  omega

theorem matchImageOpenAt_length {cs m r : List Char}
    (h : matchImageOpenAt cs = some (m, r)) : r.length + 4 ≤ cs.length := by
  obtain ⟨a, hcs, -⟩ := matchImageOpenAt_sound h
  subst hcs
  simp only [List.length_cons, List.length_append]
  omega

/-- No match can start at a character other than a bang. -/
theorem matchImageRefAt_none {c : Char} (h : c ≠ '!') (l : List Char) :
    matchImageRefAt (c :: l) = none := by
  cases l with
  | nil => rfl
  | cons c2 rest =>
    rw [matchImageRefAt, if_neg]
    rintro ⟨rfl, -⟩
    exact h rfl

theorem matchImageOpenAt_none {c : Char} (h : c ≠ '!') (l : List Char) :
    matchImageOpenAt (c :: l) = none := by
  cases l with
  | nil => rfl
  | cons c2 rest =>
    rw [matchImageOpenAt, if_neg]
    rintro ⟨rfl, -⟩
    exact h rfl

/-- The findall scanner ignores its fuel as long as there is enough. -/
theorem findallGo_irrel : ∀ (f1 : Nat) (cs : List Char) (f2 : Nat),
    cs.length ≤ f1 → cs.length ≤ f2 → findallGo f1 cs = findallGo f2 cs := by
  intro f1
  induction f1 with
  | zero =>
    intro cs f2 h1 h2
    have hnil : cs = [] := List.eq_nil_of_length_eq_zero (Nat.le_zero.mp h1)
    subst hnil
    cases f2 <;> rfl
  | succ f ih =>
    intro cs f2 h1 h2
    cases cs with
    | nil => cases f2 <;> rfl
    | cons c rest =>
      cases f2 with
      | zero => simp at h2
      | succ f2b =>
        simp only [findallGo]
        cases hm : matchImageRefAt (c :: rest) with
        | none =>
          simp only [hm]
          simp only [List.length_cons] at h1 h2
          exact ih rest f2b (by omega) (by omega)
        | some pr =>
          obtain ⟨t, after⟩ := pr
          have hl := matchImageRefAt_length hm
          simp only [hm]
          simp only [List.length_cons] at h1 h2 hl
          rw [ih after f2b (by omega) (by omega)]

/-- The sub scanner ignores its fuel as long as there is enough. -/
theorem subGo_irrel : ∀ (f1 : Nat) (cs : List Char) (f2 : Nat),
    cs.length ≤ f1 → cs.length ≤ f2 → subGo f1 cs = subGo f2 cs := by
  intro f1
  induction f1 with
  | zero =>
    intro cs f2 h1 h2
    have hnil : cs = [] := List.eq_nil_of_length_eq_zero (Nat.le_zero.mp h1)
    subst hnil
    cases f2 <;> rfl
  | succ f ih =>
    intro cs f2 h1 h2
    cases cs with
    | nil => cases f2 <;> rfl
    | cons c rest =>
      cases f2 with
      | zero => simp at h2
      | succ f2b =>
        simp only [subGo]
        cases hm : matchImageOpenAt (c :: rest) with
        | none =>
          simp only [hm]
          simp only [List.length_cons] at h1 h2
          rw [ih rest f2b (by omega) (by omega)]
        | some pr =>
          obtain ⟨m, after⟩ := pr
          have hl := matchImageOpenAt_length hm
          simp only [hm]
          simp only [List.length_cons] at h1 h2 hl
          rw [ih after f2b (by omega) (by omega)]

/-- Findall skips a character that starts no match. -/
theorem findallImageRefs_cons_none {c : Char} {rest : List Char}
    (h : matchImageRefAt (c :: rest) = none) :
    findallImageRefs (c :: rest) = findallImageRefs rest := by
  show findallGo (rest.length + 1) (c :: rest) = findallGo rest.length rest
  simp only [findallGo, h]

/-- Findall emits the target of a match and continues after it. -/
theorem findallImageRefs_cons_match {cs t after : List Char}
    (h : matchImageRefAt cs = some (t, after)) :
    findallImageRefs cs = t :: findallImageRefs after := by
  cases cs with
  | nil => simp [matchImageRefAt] at h
  | cons c rest =>
    have hl := matchImageRefAt_length h
    simp only [List.length_cons] at hl
    show findallGo (rest.length + 1) (c :: rest) = t :: findallGo after.length after
    simp only [findallGo, h]
    rw [findallGo_irrel rest.length after after.length (by omega) (by omega)]

/-- The rewriter copies a character that starts no match. -/
theorem rewriteImageRefs_cons_none {c : Char} {rest : List Char}
    (h : matchImageOpenAt (c :: rest) = none) :
    rewriteImageRefs (c :: rest) = c :: rewriteImageRefs rest := by
  show subGo (rest.length + 1) (c :: rest) = c :: subGo rest.length rest
  simp only [subGo, h]

/-- The rewriter emits the matched text, then the directory, and continues. -/
theorem rewriteImageRefs_cons_match {cs m after : List Char}
    (h : matchImageOpenAt cs = some (m, after)) :
    rewriteImageRefs cs = m ++ refDirChars ++ rewriteImageRefs after := by
  cases cs with
  | nil => simp [matchImageOpenAt] at h
  | cons c rest =>
    have hl := matchImageOpenAt_length h
    simp only [List.length_cons] at hl
    show subGo (rest.length + 1) (c :: rest) = m ++ refDirChars ++ subGo after.length after
    simp only [subGo, h]
    rw [subGo_irrel rest.length after after.length (by omega) (by omega)]

/-- Findall passes over bang-free text. -/
theorem findallImageRefs_append_text (s : List Char) (t : List Char) (hs : '!' ∉ s) :
    findallImageRefs (s ++ t) = findallImageRefs t := by
  induction s with
  | nil => simp
  | cons c s ih =>
    have hc : c ≠ '!' := fun h => hs (by simp [h])
    have hs2 : '!' ∉ s := fun h => hs (by simp [h])
    rw [List.cons_append, findallImageRefs_cons_none (matchImageRefAt_none hc _), ih hs2]

/-- The rewriter copies bang-free text unchanged. -/
theorem rewriteImageRefs_append_text (s : List Char) (t : List Char) (hs : '!' ∉ s) :
    rewriteImageRefs (s ++ t) = s ++ rewriteImageRefs t := by
  induction s with
  | nil => simp
  | cons c s ih =>
    have hc : c ≠ '!' := fun h => hs (by simp [h])
    have hs2 : '!' ∉ s := fun h => hs (by simp [h])
    rw [List.cons_append, rewriteImageRefs_cons_none (matchImageOpenAt_none hc _), ih hs2]
    rfl

/-- Findall on a rendered well-formed image segment captures its path. -/
theorem findallImageRefs_cons_img (a p t : List Char)
    (ha1 : '\n' ∉ a) (ha2 : noEarlyClose a = true)
    (hp1 : '\n' ∉ p) (hp2 : ')' ∉ p) :
    findallImageRefs (renderSeg (.img a p) ++ t) = p :: findallImageRefs t := by
  have hshape : renderSeg (.img a p) ++ t
      = '!' :: '[' :: (a ++ ']' :: '(' :: (p ++ ')' :: t)) := by
    simp [renderSeg]
  rw [hshape]
  have hm : matchImageRefAt ('!' :: '[' :: (a ++ ']' :: '(' :: (p ++ ')' :: t)))
      = some (p, t) := by
    rw [matchImageRefAt, if_pos ⟨rfl, rfl⟩]
    simp only [findLazyClose_append a (p ++ ')' :: t) ha1 ha2,
      findLazyParen_append p t hp1 hp2]
  exact findallImageRefs_cons_match hm

/-- The rewriter on a rendered well-formed image segment inserts the
directory right in front of the path. -/
theorem rewriteImageRefs_cons_img (a p t : List Char)
    (ha1 : '\n' ∉ a) (ha2 : noEarlyClose a = true) (hp3 : '!' ∉ p) :
    rewriteImageRefs (renderSeg (.img a p) ++ t)
      = renderSeg (.img a (refDirChars ++ p)) ++ rewriteImageRefs t := by
  have hshape : renderSeg (.img a p) ++ t
      = '!' :: '[' :: (a ++ ']' :: '(' :: (p ++ ')' :: t)) := by
    simp [renderSeg]
  rw [hshape]
  have hm : matchImageOpenAt ('!' :: '[' :: (a ++ ']' :: '(' :: (p ++ ')' :: t)))
      = some ('!' :: '[' :: (a ++ [']', '(']), p ++ ')' :: t) := by
    rw [matchImageOpenAt, if_pos ⟨rfl, rfl⟩]
    simp only [findLazyClose_append a (p ++ ')' :: t) ha1 ha2]
  rw [rewriteImageRefs_cons_match hm]
  have htext : rewriteImageRefs (p ++ ')' :: t) = p ++ ')' :: rewriteImageRefs t := by
    have hnb : '!' ∉ p ++ [')'] := by
      intro hx
      rcases List.mem_append.mp hx with hx | hx
      · exact hp3 hx
      · simp at hx
    have := rewriteImageRefs_append_text (p ++ [')']) t hnb
    simpa [List.append_assoc] using this
  rw [htext]
  simp [renderSeg, refDirChars, List.append_assoc]

/-- Findall on a rendered well-formed document returns exactly its image
targets, in order. -/
theorem findallImageRefs_renderDoc (d : List Seg) (h : ∀ sg ∈ d, wfSeg sg) :
    findallImageRefs (renderDoc d) = docImageTargets d := by
  induction d with
  | nil => rfl
  | cons sg d ih =>
    have hsg := h sg (by simp)
    have hd : ∀ s2 ∈ d, wfSeg s2 := fun s2 hs2 => h s2 (by simp [hs2])
    have hrd : renderDoc (sg :: d) = renderSeg sg ++ renderDoc d := by
      simp [renderDoc]
    cases sg with
    | text s =>
      rw [hrd]
      simp only [renderSeg]
      rw [findallImageRefs_append_text s _ hsg, ih hd]
      simp [docImageTargets]
    | img a p =>
      obtain ⟨h1, h2, h3, h4, h5⟩ := hsg
      rw [hrd, findallImageRefs_cons_img a p _ h1 h2 h3 h4, ih hd]
      simp [docImageTargets]

/-- The rewriter on a rendered well-formed document prepends the directory
to every image target and changes nothing else. -/
theorem rewriteImageRefs_renderDoc (d : List Seg) (h : ∀ sg ∈ d, wfSeg sg) :
    rewriteImageRefs (renderDoc d) = renderDoc (d.map prependRefDir) := by
  induction d with
  | nil => rfl
  | cons sg d ih =>
    have hsg := h sg (by simp)
    have hd : ∀ s2 ∈ d, wfSeg s2 := fun s2 hs2 => h s2 (by simp [hs2])
    have hrd : renderDoc (sg :: d) = renderSeg sg ++ renderDoc d := by
      simp [renderDoc]
    have hrd2 : renderDoc (prependRefDir sg :: d.map prependRefDir)
        = renderSeg (prependRefDir sg) ++ renderDoc (d.map prependRefDir) := by
      simp [renderDoc]
    cases sg with
    | text s =>
      rw [hrd]
      simp only [renderSeg]
      rw [rewriteImageRefs_append_text s _ hsg, ih hd]
      simp [renderDoc, prependRefDir, renderSeg]
    | img a p =>
      obtain ⟨h1, h2, h3, h4, h5⟩ := hsg
      rw [hrd, rewriteImageRefs_cons_img a p _ h1 h2 h5, ih hd]
      simp [renderDoc, prependRefDir]

/-! ### Cleanup (C3) -/

/-- A file survives the cleanup loop exactly when it was on disk and is
either referenced or not a candidate's path at all. -/
theorem mem_cleanupImages (subs : List CandidateImage) (refs : List (List Char))
    (files : List (List Char)) (p : List Char) (hnd : files.Nodup) :
    p ∈ cleanupImages subs refs files ↔
      p ∈ files ∧ (p ∈ refs ∨ ∀ c ∈ subs, c.path ≠ p) := by
  induction subs generalizing files with
  | nil => simp [cleanupImages]
  | cons img rest ih =>
    simp only [cleanupImages]
    by_cases himg : img.path ∈ refs
    · rw [if_pos himg, ih files hnd]
      constructor
      · rintro ⟨hf, hor⟩
        refine ⟨hf, ?_⟩
        rcases hor with h | h
        · exact Or.inl h
        · by_cases hpi : p ∈ refs
          · exact Or.inl hpi
          · refine Or.inr fun c hc => ?_
            rcases List.mem_cons.mp hc with rfl | hc2
            · exact fun hpe => hpi (hpe ▸ himg)
            · exact h c hc2
      · rintro ⟨hf, hor⟩
        refine ⟨hf, ?_⟩
        rcases hor with h | h
        · exact Or.inl h
        · exact Or.inr fun c hc => h c (List.mem_cons_of_mem _ hc)
    · rw [if_neg himg, ih (files.erase img.path) (hnd.erase _)]
      rw [hnd.mem_erase_iff]
      constructor
      · rintro ⟨⟨hne, hf⟩, hor⟩
        refine ⟨hf, ?_⟩
        rcases hor with h | h
        · exact Or.inl h
        · refine Or.inr fun c hc => ?_
          rcases List.mem_cons.mp hc with rfl | hc2
          · exact fun hpe => hne hpe.symm
          · exact h c hc2
      · rintro ⟨hf, hor⟩
        rcases hor with h | h
        · exact ⟨⟨fun hpe => himg (hpe ▸ h), hf⟩, Or.inl h⟩
        · refine ⟨⟨?_, hf⟩, Or.inr fun c hc => h c (List.mem_cons_of_mem _ hc)⟩
          have himgp := h img (by simp)
          exact fun hpe => himgp hpe.symm

/-- C3.  For a well-formed markdown document: a candidate's persisted file
survives reconciliation exactly when its relative path is referenced (or it
was never a candidate); the referenced set is exactly the document's image
targets; and the rewrite inserts the fixed directory immediately before
every image target, changing nothing else. -/
theorem claim_C3_cleanup_and_rewrite (d : List Seg) (hwf : ∀ sg ∈ d, wfSeg sg)
    (subs : List CandidateImage) (files : List (List Char)) (p : List Char)
    (hnd : files.Nodup) :
    (p ∈ cleanupImages subs (findallImageRefs (renderDoc d)) files ↔
      p ∈ files ∧ (p ∈ findallImageRefs (renderDoc d) ∨ ∀ c ∈ subs, c.path ≠ p)) ∧
    findallImageRefs (renderDoc d) = docImageTargets d ∧
    rewriteImageRefs (renderDoc d) = renderDoc (d.map prependRefDir) :=
  ⟨mem_cleanupImages subs _ files p hnd, findallImageRefs_renderDoc d hwf,
   rewriteImageRefs_renderDoc d hwf⟩

/-- C3 witness: the concrete one-image document. -/
theorem claim_C3_witness :
    (("i.png".toList ∈ cleanupImages [⟨"i.png".toList, []⟩]
        (findallImageRefs (renderDoc [Seg.img ['d'] "i.png".toList]))
        ["i.png".toList, "j.png".toList] ↔
      "i.png".toList ∈ ["i.png".toList, "j.png".toList] ∧
        ("i.png".toList ∈ findallImageRefs (renderDoc [Seg.img ['d'] "i.png".toList]) ∨
          ∀ c ∈ [(⟨"i.png".toList, []⟩ : CandidateImage)], c.path ≠ "i.png".toList)) ∧
    findallImageRefs (renderDoc [Seg.img ['d'] "i.png".toList])
      = docImageTargets [Seg.img ['d'] "i.png".toList] ∧
    rewriteImageRefs (renderDoc [Seg.img ['d'] "i.png".toList])
      = renderDoc ([Seg.img ['d'] "i.png".toList].map prependRefDir)) :=
  claim_C3_cleanup_and_rewrite [Seg.img ['d'] "i.png".toList] (by decide)
    [⟨"i.png".toList, []⟩] ["i.png".toList, "j.png".toList] "i.png".toList (by decide)

/-! ### The concrete reconciliation scenario (C2) -/

/-- C2 counterexample.  In the spec's scenario the model references the bare
filename img_0.png while the candidate's stored relative path is
page_1/img_0.png; the bare name is not in the referenced set, so the
candidate's file is deleted, not retained - yet the page is still written. -/
theorem claim_C2_counterexample :
    "page_1/img_0.png".toList ∉ scenarioOutcome.files ∧
    scenarioOutcome.written.isSome = true := by
  exact ⟨by decide, by decide⟩

/-- C2 amended.  In that scenario both candidates' files are deleted (the
bare reference matches neither stored relative path), and the page is
written as Unit_U1_Lesson_1_T.md whose body holds the rewritten reference
../illustrative_images/img_0.png, with no exception escaping. -/
theorem claim_C2_amended :
    scenarioOutcome.files = [] ∧
    scenarioOutcome.written = some ("Unit_U1_Lesson_1_T.md".toList,
      "text ![d](../illustrative_images/img_0.png)".toList) ∧
    scenarioOutcome.raised = none := by
  exact ⟨by decide, by decide, by decide⟩

/-! ### Response handling (C4, C5) -/

/-- A page whose parsed object lacks markdown_content, or holds only
whitespace there, is skipped: nothing written, nothing deleted, nothing
raised. -/
theorem reconcileParsed_skip (fields : List (List Char × JVal)) (pageNum : Nat)
    (subs : List CandidateImage) (files : List (List Char))
    (h : jvalGet fields mdKey = none ∨
      ∃ s, jvalGet fields mdKey = some (.str s) ∧ pyStrip s = []) :
    reconcileParsed (.obj fields) pageNum subs files = ⟨files, none, none⟩ := by
  rcases h with h | ⟨s, h, hs⟩
  · simp [reconcileParsed, h]
  · simp only [reconcileParsed, h]
    by_cases hempty : s = []
    · subst hempty
      simp [pyTruthy]
    · have ht : pyTruthy (JVal.str s) = true := by
        simp [pyTruthy, hempty]
      rw [ht]
      simp [hs]

/-- C4.  A parsed response whose markdown_content is absent or
empty/whitespace-only after trimming makes the page be skipped with no
output file, no candidate deletion and no exception: the files on disk are
returned untouched. -/
theorem claim_C4_empty_markdown_skips (fields : List (List Char × JVal)) (pageNum : Nat)
    (subs : List CandidateImage) (files : List (List Char))
    (h : jvalGet fields mdKey = none ∨
      ∃ s, jvalGet fields mdKey = some (.str s) ∧ pyStrip s = []) :
    reconcileParsed (.obj fields) pageNum subs files = ⟨files, none, none⟩ :=
  reconcileParsed_skip fields pageNum subs files h

/-- C4 witness: a whitespace-only markdown_content at a concrete page. -/
theorem claim_C4_witness :
    reconcileParsed (.obj [(mdKey, JVal.str [' ', '\n'])]) 0
      [⟨"page_1/img_0.png".toList, [1]⟩] ["page_1/img_0.png".toList]
      = ⟨["page_1/img_0.png".toList], none, none⟩ :=
  claim_C4_empty_markdown_skips _ 0 _ _ (Or.inr ⟨[' ', '\n'], rfl, rfl⟩)

/-- The except clause over the scenario envelope: a caught exception logs
the raw content (which succeeds for this envelope) and skips the page;
anything else escapes. -/
theorem handleExc_envelopeOf (raw : List Char) (files : List (List Char)) (e : PyExc) :
    handleExc (envelopeOf raw) files e =
      if caughtByHandler e then ⟨files, none, none⟩ else ⟨files, none, some e⟩ := by
  rw [handleExc]
  split_ifs with hc
  · rfl
  · rfl

/-- One page iteration over a well-formed envelope reduces to the parse
outcome and the reconciler. -/
theorem processPageResult_envelopeOf (parse : List Char → Except Unit JVal)
    (raw : List Char) (pageNum : Nat) (subs : List CandidateImage)
    (files : List (List Char)) :
    processPageResult (some (envelopeOf raw)) parse pageNum subs files =
      match parse raw with
      | .error _ => ⟨files, none, none⟩
      | .ok jv =>
        match (reconcileParsed jv pageNum subs files).raised with
        | none => reconcileParsed jv pageNum subs files
        | some e =>
          if caughtByHandler e then
            ⟨(reconcileParsed jv pageNum subs files).files, none, none⟩
          else ⟨(reconcileParsed jv pageNum subs files).files, none, some e⟩ := by
  have hred : processPageResult (some (envelopeOf raw)) parse pageNum subs files =
      match parse raw with
      | .error _ => handleExc (envelopeOf raw) files .jsonDecodeError
      | .ok jv =>
        match (reconcileParsed jv pageNum subs files).raised with
        | none => reconcileParsed jv pageNum subs files
        | some e => handleExc (envelopeOf raw) (reconcileParsed jv pageNum subs files).files e := rfl
  rw [hred]
  cases hp : parse raw with
  | error u => simp [handleExc_envelopeOf, caughtByHandler]
  | ok jv =>
    cases hr : (reconcileParsed jv pageNum subs files).raised with
    | none => rfl
    | some e => simp [handleExc_envelopeOf]

/-- C5 counterexample.  A response whose content parses to an object with a
wrong-typed (numeric) markdown_content raises AttributeError, which the
except clause does not catch: the exception escapes the page loop and the
run, instead of skipping only that page. -/
theorem claim_C5_counterexample :
    (processPageResult (some (envelopeOf "raw".toList))
        (fun _ => .ok (JVal.obj [(mdKey, JVal.num 5)])) 0 [] []).raised
      = some PyExc.attributeError := by decide

/-- C5 amended.  A content that fails to parse as JSON is logged and the
page alone is skipped with files untouched; likewise a parsed object with
markdown_content missing; but a truthy non-string markdown_content raises
AttributeError, which is not in the caught tuple and escapes above document
scope. -/
theorem claim_C5_amended :
    (∀ (parse : List Char → Except Unit JVal) (raw : List Char) (pageNum : Nat)
        (subs : List CandidateImage) (files : List (List Char)),
      parse raw = .error () →
      processPageResult (some (envelopeOf raw)) parse pageNum subs files
        = ⟨files, none, none⟩) ∧
    (∀ (parse : List Char → Except Unit JVal) (raw : List Char)
        (fields : List (List Char × JVal)) (pageNum : Nat)
        (subs : List CandidateImage) (files : List (List Char)),
      parse raw = .ok (.obj fields) → jvalGet fields mdKey = none →
      processPageResult (some (envelopeOf raw)) parse pageNum subs files
        = ⟨files, none, none⟩) ∧
    (∀ (parse : List Char → Except Unit JVal) (raw : List Char) (n : Int)
        (pageNum : Nat) (subs : List CandidateImage) (files : List (List Char)),
      parse raw = .ok (.obj [(mdKey, .num n)]) → n ≠ 0 →
      (processPageResult (some (envelopeOf raw)) parse pageNum subs files).raised
        = some PyExc.attributeError) := by
  refine ⟨?_, ?_, ?_⟩
  · intro parse raw pageNum subs files hp
    rw [processPageResult_envelopeOf, hp]
  · intro parse raw fields pageNum subs files hp hmd
    rw [processPageResult_envelopeOf]
    simp only [hp, reconcileParsed_skip fields pageNum subs files (Or.inl hmd)]
  · intro parse raw n pageNum subs files hp hn
    have hrec : reconcileParsed (.obj [(mdKey, .num n)]) pageNum subs files
        = ⟨files, none, some .attributeError⟩ := by
      have hget : jvalGet [(mdKey, JVal.num n)] mdKey = some (.num n) := rfl
      have ht : pyTruthy (JVal.num n) = true := by simp [pyTruthy, hn]
      simp [reconcileParsed, hget, ht]
    rw [processPageResult_envelopeOf]
    simp only [hp, hrec]
    rfl

/-- C5 witness: the amended claim at a concrete failing parse. -/
theorem claim_C5_witness :
    processPageResult (some (envelopeOf "x".toList)) (fun _ => .error ()) 0 []
      ["p".toList] = ⟨["p".toList], none, none⟩ :=
  claim_C5_amended.1 (fun _ => .error ()) "x".toList 0 [] ["p".toList] rfl

/-! ### Extraction (C8) -/

/-- Membership in the extraction loop's output, with the running index. -/
theorem extractGo_mem (dirBase : List Char) (k : Nat)
    (objs : List (Except Unit EmbeddedImage)) (c : CandidateImage) :
    c ∈ extractGo dirBase k objs ↔
      ∃ i img, objs.get? i = some (.ok img) ∧ img.bytes ≠ [] ∧
        50 ≤ img.width ∧ 50 ≤ img.height ∧
        c = ⟨dirBase ++ '/' :: candidateFilename (k + i) img.ext, img.bytes⟩ := by
  induction objs generalizing k with
  | nil => simp [extractGo]
  | cons o rest ih =>
    cases o with
    | error u =>
      simp only [extractGo]
      rw [ih (k + 1)]
      constructor
      · rintro ⟨i, img, hget, h1, h2, h3, hc⟩
        refine ⟨i + 1, img, by simpa using hget, h1, h2, h3, ?_⟩
        have harith : k + 1 + i = k + (i + 1) := by omega
        rw [harith] at hc
        exact hc
      · rintro ⟨i, img, hget, h1, h2, h3, hc⟩
        cases i with
        | zero => simp at hget
        | succ j =>
          refine ⟨j, img, by simpa using hget, h1, h2, h3, ?_⟩
          have harith : k + (j + 1) = k + 1 + j := by omega
          rw [harith] at hc
          exact hc
    | ok img0 =>
      simp only [extractGo]
      by_cases hskip : img0.bytes = [] ∨ img0.width < 50 ∨ img0.height < 50
      · rw [if_pos hskip, ih (k + 1)]
        constructor
        · rintro ⟨i, img, hget, h1, h2, h3, hc⟩
          refine ⟨i + 1, img, by simpa using hget, h1, h2, h3, ?_⟩
          have harith : k + 1 + i = k + (i + 1) := by omega
          rw [harith] at hc
          exact hc
        · rintro ⟨i, img, hget, h1, h2, h3, hc⟩
          cases i with
          | zero =>
            simp only [List.get?] at hget
            have himg : img = img0 := by
              have := Option.some.inj hget
              exact (Except.ok.inj this).symm
            subst himg
            rcases hskip with hs | hs | hs
            · exact absurd hs h1
            · omega
            · omega
          | succ j =>
            refine ⟨j, img, by simpa using hget, h1, h2, h3, ?_⟩
            have harith : k + (j + 1) = k + 1 + j := by omega
            rw [harith] at hc
            exact hc
      · rw [if_neg hskip]
        push_neg at hskip
        obtain ⟨hb, hw, hh⟩ := hskip
        constructor
        · intro hmem
          rcases List.mem_cons.mp hmem with rfl | hmem2
          · exact ⟨0, img0, rfl, hb, hw, hh, by simp⟩
          · obtain ⟨i, img, hget, h1, h2, h3, hc⟩ := (ih (k + 1)).mp hmem2
            refine ⟨i + 1, img, by simpa using hget, h1, h2, h3, ?_⟩
            have harith : k + 1 + i = k + (i + 1) := by omega
            rw [harith] at hc
            exact hc
        · rintro ⟨i, img, hget, h1, h2, h3, hc⟩
          cases i with
          | zero =>
            simp only [List.get?] at hget
            have himg : img = img0 := by
              have := Option.some.inj hget
              exact (Except.ok.inj this).symm
            subst himg
            subst hc
            simp
          | succ j =>
            refine List.mem_cons_of_mem _ ((ih (k + 1)).mpr ⟨j, img, by simpa using hget, h1, h2, h3, ?_⟩)
            have harith : k + (j + 1) = k + 1 + j := by omega
            rw [harith] at hc
            exact hc

/-- C8.  A candidate appears in the extractor's output exactly when its
embedded object was extracted without failure, has non-empty bytes and both
dimensions at least 50; a failing entry (and a filtered one) still advances
the enumeration index but aborts nothing - concretely, of a 40 by 60
object, a failing object and a 60 by 60 object only the third survives,
keeping its index 2. -/
theorem claim_C8_extract_filter :
    (∀ (objs : List (Except Unit EmbeddedImage)) (dirBase : List Char) (c : CandidateImage),
      c ∈ extract_illustrative_images objs dirBase ↔
        ∃ i img, objs.get? i = some (.ok img) ∧ img.bytes ≠ [] ∧
          50 ≤ img.width ∧ 50 ≤ img.height ∧
          c = ⟨dirBase ++ '/' :: candidateFilename i img.ext, img.bytes⟩) ∧
    extract_illustrative_images
        [.ok ⟨[1], 40, 60, "png".toList⟩, .error (), .ok ⟨[2], 60, 60, "png".toList⟩]
        "page_1".toList
      = [⟨"page_1/img_2.png".toList, [2]⟩] := by
  constructor
  · intro objs dirBase c
    have h := extractGo_mem dirBase 0 objs c
    simpa [extract_illustrative_images] using h
  · decide

/-! ### Gamma correction (C9) -/

/-- The table entry at gamma 6/5 is the integer sixth root of 255 times the
fifth power of the intensity: an exact integer characterization. -/
theorem gammaTable_eq (i n : ℕ) (h1 : n ^ 6 ≤ 255 * i ^ 5)
    (h2 : 255 * i ^ 5 < (n + 1) ^ 6) : gammaTable (6 / 5) (i : ℕ) = (n : ℤ) := by
  have hb : (0:ℝ) ≤ (i:ℝ) / 255 := by positivity
  have hinv : ((6:ℝ)/5)⁻¹ = (5:ℝ)/6 := by norm_num
  have hy0 : (0:ℝ) ≤ gammaMap (6/5) i := by
    rw [gammaMap, hinv]
    have := Real.rpow_nonneg hb ((5:ℝ)/6)
    linarith
  have hy6 : gammaMap (6/5) i ^ (6:ℕ) = 255 * (i:ℝ) ^ (5:ℕ) := by
    rw [gammaMap, hinv, mul_pow]
    have hpow : (((i:ℝ)/255) ^ ((5:ℝ)/6)) ^ (6:ℕ) = ((i:ℝ)/255) ^ (5:ℕ) := by
      rw [← Real.rpow_natCast (((i:ℝ)/255) ^ ((5:ℝ)/6)) 6, ← Real.rpow_mul hb]
      norm_num
      rw [show ((5:ℝ)) = ((5:ℕ):ℝ) by norm_num, Real.rpow_natCast]
    rw [hpow]
    field_simp
    ring
  have hle : (n:ℝ) ≤ gammaMap (6/5) i := by
    by_contra hlt
    push_neg at hlt
    have hpl : gammaMap (6/5) i ^ (6:ℕ) < (n:ℝ) ^ (6:ℕ) :=
      pow_lt_pow_left₀ hlt hy0 (by norm_num)
    rw [hy6] at hpl
    have hcast : ((n:ℝ)) ^ (6:ℕ) ≤ 255 * (i:ℝ) ^ (5:ℕ) := by exact_mod_cast h1
    linarith
  have hlt2 : gammaMap (6/5) i < (n:ℝ) + 1 := by
    by_contra hge
    push_neg at hge
    have hpl : ((n:ℝ) + 1) ^ (6:ℕ) ≤ gammaMap (6/5) i ^ (6:ℕ) :=
      pow_le_pow_left₀ (by positivity) hge 6
    rw [hy6] at hpl
    have hcast : (255:ℝ) * (i:ℝ) ^ (5:ℕ) < ((n:ℝ) + 1) ^ (6:ℕ) := by exact_mod_cast h2
    linarith
  rw [gammaTable, Int.floor_eq_iff]
  constructor
  · push_cast
    exact hle
  · push_cast
    exact hlt2

/-- C9 counterexample.  The quantized lookup at the default gamma 1.2 is not
injective: intensities 121 and 122 share the table entry 137. -/
theorem claim_C9_counterexample :
    gammaTable (1.2 : ℝ) 121 = gammaTable (1.2 : ℝ) 122 ∧ (121 : ℕ) ≠ 122 := by
  have h12 : (1.2 : ℝ) = 6 / 5 := by norm_num
  constructor
  · rw [h12, gammaTable_eq 121 137 (by norm_num) (by norm_num),
        gammaTable_eq 122 137 (by norm_num) (by norm_num)]
  · decide

/-- C9 amended.  The lookup table is monotone non-decreasing in the input
intensity for every positive gamma, and at the default gamma 1.2 the
underlying real-valued map is strictly increasing (so injective); the
quantized 8-bit table itself, however, is not injective. -/
theorem claim_C9_amended :
    (∀ γ : ℝ, 0 < γ → ∀ i j : ℕ, i ≤ j → gammaTable γ i ≤ gammaTable γ j) ∧
    (∀ x y : ℝ, 0 ≤ x → x < y → gammaMap (6 / 5) x < gammaMap (6 / 5) y) := by
  constructor
  · intro γ hγ i j hij
    apply Int.floor_le_floor
    rw [gammaMap, gammaMap]
    have hd : (i:ℝ) / 255 ≤ (j:ℝ) / 255 := by
      have : (i:ℝ) ≤ (j:ℝ) := by exact_mod_cast hij
      linarith
    have := Real.rpow_le_rpow (by positivity) hd (le_of_lt (inv_pos.mpr hγ))
    linarith
  · intro x y hx hxy
    rw [gammaMap, gammaMap]
    have hd : x / 255 < y / 255 := by linarith
    have hz : (0:ℝ) < ((6:ℝ)/5)⁻¹ := by norm_num
    have := Real.rpow_lt_rpow (by positivity) hd hz
    linarith

/-- C9 witness: monotonicity at gamma 1 between intensities 0 and 1, and
strict growth of the real map at gamma 6/5 between 0 and 1. -/
theorem claim_C9_witness :
    gammaTable 1 0 ≤ gammaTable 1 1 ∧ gammaMap (6 / 5) 0 < gammaMap (6 / 5) 1 :=
  ⟨claim_C9_amended.1 1 zero_lt_one 0 1 (Nat.zero_le 1),
   claim_C9_amended.2 0 1 (le_refl 0) zero_lt_one⟩
